import Mathlib

/-!
Shallow embedding of asterisklint's file-reading pipeline
(`asterisklint/file.py`): the source stack (`BinFileReader`), the decoder
(`EncodingReader`), the control-character guard (`NoCtrlReader`), the
line-ending tracker (`FileformatReader`) and the comment/escape splitter
(`AsteriskCommentReader`).

Bytes are modelled as `Nat` (< 256 for real inputs); decoded text is a list
of Unicode code points (`Nat`).  Each pipeline stage is a pure function
from its input line list to its output line list paired with the ordered
list of diagnostics it emits.
-/

/-- Position record `Where(filename, lineno, line)` (`asterisklint/where.py`):
identifies one physical line of one source; `line` keeps the raw byte line. -/
structure Where where
  filename : String
  lineno : Nat
  line : List Nat
deriving DecidableEq, Repr

/-- The diagnostics defined at the top of `file.py` (each carries the
position it was emitted at). -/
inductive Diag where
  | E_FILE_UTF8_BAD (w : Where)
  | W_FILE_CTRL_CHAR (w : Where)
  | W_FILE_DOS_EOFCRLF (w : Where)
  | W_FILE_DOS_BARELF (w : Where)
  | W_FILE_UNIX_CRLF (w : Where)
  | W_FILE_UNIX_NOLF (w : Where)
  | W_WSH_EOL (w : Where)
deriving DecidableEq, Repr

/-- Decoded text: a list of Unicode code points. -/
abbrev Text := List Nat

/-- Build a `Text` from a Lean string literal (for concrete test inputs). -/
def strToText (s : String) : Text := s.data.map Char.toNat

/-- Total list indexer: `at0 l i` is `l[i]`, or `0` out of range. -/
def at0 : Text → Nat → Nat
  | [], _ => 0
  | c :: _, 0 => c
  | _ :: rest, k + 1 => at0 rest k

/- ---------------------------------------------------------------------
   EncodingReader: UTF-8 with cp1252 fallback.
--------------------------------------------------------------------- -/

/-- Strict UTF-8 decoding of a byte line to code points, as Python's
`bytes.decode('utf-8')`: rejects truncated sequences, stray continuation
bytes, overlong forms, surrogates and values above U+10FFFF.  `fuel` only
drives structural recursion; every step consumes at least one byte, so
any fuel at least the list length gives the decoder's value. -/
def utf8DecodeGo : Nat → List Nat → Option (List Nat)
  | _, [] => some []
  | 0, _ :: _ => none
  | fuel + 1, b :: rest =>
    if b ≤ 0x7F then
      (utf8DecodeGo fuel rest).map (fun cs => b :: cs)
    else if b < 0xC2 then none
    else if b ≤ 0xDF then
      match rest with
      | b2 :: rest2 =>
        if 0x80 ≤ b2 ∧ b2 ≤ 0xBF then
          (utf8DecodeGo fuel rest2).map (fun cs => ((b - 0xC0) * 0x40 + (b2 - 0x80)) :: cs)
        else none
      | [] => none
    else if b ≤ 0xEF then
      match rest with
      | b2 :: b3 :: rest3 =>
        if (if b = 0xE0 then 0xA0 else 0x80) ≤ b2 ∧ b2 ≤ (if b = 0xED then 0x9F else 0xBF)
            ∧ 0x80 ≤ b3 ∧ b3 ≤ 0xBF then
          (utf8DecodeGo fuel rest3).map
            (fun cs => ((b - 0xE0) * 0x1000 + (b2 - 0x80) * 0x40 + (b3 - 0x80)) :: cs)
        else none
      | _ => none
    else if b ≤ 0xF4 then
      match rest with
      | b2 :: b3 :: b4 :: rest4 =>
        if (if b = 0xF0 then 0x90 else 0x80) ≤ b2 ∧ b2 ≤ (if b = 0xF4 then 0x8F else 0xBF)
            ∧ 0x80 ≤ b3 ∧ b3 ≤ 0xBF ∧ 0x80 ≤ b4 ∧ b4 ≤ 0xBF then
          (utf8DecodeGo fuel rest4).map
            (fun cs => ((b - 0xF0) * 0x40000 + (b2 - 0x80) * 0x1000
                        + (b3 - 0x80) * 0x40 + (b4 - 0x80)) :: cs)
        else none
      | _ => none
    else none

/-- `bytes.decode('utf-8')` on one line. -/
def utf8Decode? (bs : List Nat) : Option (List Nat) :=
  utf8DecodeGo bs.length bs

/-- One byte of Python's `cp1252` decoding table: bytes 0x81, 0x8D, 0x8F,
0x90 and 0x9D are UNDEFINED there and make `bytes.decode('cp1252')` raise. -/
def cp1252Byte? (b : Nat) : Option Nat :=
  if b < 0x80 then some b
  else if 0xA0 ≤ b then (if b ≤ 0xFF then some b else none)
  else match b with
    | 0x80 => some 0x20AC
    | 0x82 => some 0x201A
    | 0x83 => some 0x0192
    | 0x84 => some 0x201E
    | 0x85 => some 0x2026
    | 0x86 => some 0x2020
    | 0x87 => some 0x2021
    | 0x88 => some 0x02C6
    | 0x89 => some 0x2030
    | 0x8A => some 0x0160
    | 0x8B => some 0x2039
    | 0x8C => some 0x0152
    | 0x8E => some 0x017D
    | 0x91 => some 0x2018
    | 0x92 => some 0x2019
    | 0x93 => some 0x201C
    | 0x94 => some 0x201D
    | 0x95 => some 0x2022
    | 0x96 => some 0x2013
    | 0x97 => some 0x2014
    | 0x98 => some 0x02DC
    | 0x99 => some 0x2122
    | 0x9A => some 0x0161
    | 0x9B => some 0x203A
    | 0x9C => some 0x0153
    | 0x9E => some 0x017E
    | 0x9F => some 0x0178
    | _ => none

/-- `bytes.decode('cp1252')`: per-byte table decode; `none` when Python
would raise `UnicodeDecodeError` (an undefined table entry). -/
def cp1252Decode? (bs : List Nat) : Option Text :=
  bs.mapM cp1252Byte?

/-- `EncodingReader.__iter__`: decode each line as UTF-8; on failure emit
`E_FILE_UTF8_BAD` at that position and decode as cp1252 instead.  A `none`
first component models an uncaught `UnicodeDecodeError` from the fallback. -/
def encodingReader : List (Where × List Nat) → Option (List (Where × Text)) × List Diag
  | [] => (some [], [])
  | (w, bs) :: rest =>
    match utf8Decode? bs with
    | some cs =>
      let r := encodingReader rest
      (r.1.map (fun outs => (w, cs) :: outs), r.2)
    | none =>
      match cp1252Decode? bs with
      | some cs =>
        let r := encodingReader rest
        (r.1.map (fun outs => (w, cs) :: outs), Diag.E_FILE_UTF8_BAD w :: r.2)
      | none => (none, [Diag.E_FILE_UTF8_BAD w])

/- ---------------------------------------------------------------------
   NoCtrlReader: control-character guard.
--------------------------------------------------------------------- -/

/-- Membership in `NoCtrlReader.illegal`: every ASCII control character
except `\t` (9), `\n` (10) and `\r` (13). -/
def illegalCtrl (c : Nat) : Bool :=
  decide (c < 32) && !(c == 9) && !(c == 10) && !(c == 13)

/-- `set(data) & illegal` nonempty. -/
def hasCtrl (d : Text) : Bool := d.any illegalCtrl

/-- `NoCtrlReader.__iter__`: one `W_FILE_CTRL_CHAR` per offending line;
text passes through unchanged. -/
def noCtrlReader : List (Where × Text) → List (Where × Text) × List Diag
  | [] => ([], [])
  | (w, d) :: rest =>
    let r := noCtrlReader rest
    ((w, d) :: r.1, (if hasCtrl d then [Diag.W_FILE_CTRL_CHAR w] else []) ++ r.2)

/- ---------------------------------------------------------------------
   Line terminator tests (`data.endswith('\r\n')` / `data.endswith('\n')`).
--------------------------------------------------------------------- -/

/-- `data.endswith('\n')`. -/
def endsWithLF (d : Text) : Bool :=
  !d.isEmpty && at0 d (d.length - 1) == 10

/-- `data.endswith('\r\n')`. -/
def endsWithCRLF (d : Text) : Bool :=
  decide (2 ≤ d.length) && at0 d (d.length - 2) == 13 && at0 d (d.length - 1) == 10

/-- Terminator stripping done by `FileformatReader.__iter__`:
`data[0:-2]` for CRLF, `data[0:-1]` for bare LF, unchanged otherwise. -/
def stripTerm (d : Text) : Text :=
  if endsWithCRLF d then d.dropLast.dropLast
  else if endsWithLF d then d.dropLast
  else d

/- ---------------------------------------------------------------------
   AsteriskCommentReader: comment/escape splitter.
--------------------------------------------------------------------- -/

/-- `data.index(';')`: index of the first comment delimiter, if any. -/
def findSemi : Text → Option Nat
  | [] => none
  | c :: rest => if c = 59 then some 0 else (findSemi rest).map (fun i => i + 1)

/-- Space or horizontal tab (`in ' \t'`). -/
def isWsp (c : Nat) : Bool := c == 32 || c == 9

/-- The lookback loop `while i > 0 and data[i - 1] in ' \t': i -= 1`. -/
def backWs (d : Text) : Nat → Nat
  | 0 => 0
  | i + 1 => if isWsp (at0 d i) then backWs d i else i + 1

/-- `data.endswith(tuple(' \t'))`. -/
def endsWithWsp (d : Text) : Bool :=
  !d.isEmpty && isWsp (at0 d (d.length - 1))

/-- `data.rstrip(' \t')`. -/
def rstripWs (d : Text) : Text := d.take (backWs d d.length)

/-- `AsteriskCommentReader.simple_comment_split`: split at the first `;`,
first moving the whitespace run immediately before it into the comment. -/
def simple_comment_split (d : Text) : Text × Text :=
  match findSemi d with
  | none => (d, [])
  | some i =>
    let j := backWs d i
    (d.take j, d.drop j)

/-- Whether the text holds a backslash immediately followed by `;`
(an escaped delimiter, the case the escape-scanning loop rewrites). -/
def hasEscSemi : Text → Bool
  | [] => false
  | [_] => false
  | a :: b :: rest => (a == 92 && b == 59) || hasEscSemi (b :: rest)

/-- The backslash-escape scanning loop of `AsteriskCommentReader.__iter__`:
at each `;`, if the preceding character is a backslash, replace the pair by
a literal `;` and continue; otherwise the comment starts there.  Returns
(joined code parts, comment).  `fuel` only drives structural recursion;
each pass consumes at least one character, so any fuel at least the list
length gives the loop's value (at fuel `0` the list is empty, and an empty
list holds no `;`, so `(d, [])` agrees with the `none` arm). -/
def escapeSplitGo : Nat → Text → Text × Text
  | 0, d => (d, [])
  | fuel + 1, d =>
    match findSemi d with
    | none => (d, [])
    | some i =>
      if i ≠ 0 ∧ at0 d (i - 1) == 92 then
        let r := escapeSplitGo fuel (d.drop (i + 1))
        (d.take (i - 1) ++ 59 :: r.1, r.2)
      else
        (d.take i, d.drop i)

/-- The escape-scanning loop run on a whole line. -/
def escapeSplit (d : Text) : Text × Text :=
  escapeSplitGo d.length d

/-- The whole-line split (escaped path followed by the final
whitespace-to-comment move of `__iter__`). -/
def escapeSplitFull (d : Text) : Text × Text :=
  let r := escapeSplit d
  let j := backWs r.1 r.1.length
  (r.1.take j, r.1.drop j ++ r.2)

/-- The split applied to a (already whitespace-stripped) line: the fast
path when the line holds no backslash, the escape-scanning path otherwise. -/
def splitData (d : Text) : Text × Text :=
  if d.contains 92 then escapeSplitFull d else simple_comment_split d

/-- Per-line behaviour of `AsteriskCommentReader.__iter__`: strip trailing
whitespace (recording whether `W_WSH_EOL` fires), then split.  Returns
(code, comment, whitespace-warning flag). -/
def commentStep (d : Text) : Text × Text × Bool :=
  if endsWithWsp d then
    let r := splitData (rstripWs d)
    (r.1, r.2, true)
  else
    let r := splitData d
    (r.1, r.2, false)

/-- `AsteriskCommentReader.__iter__` over a line sequence. -/
def asteriskCommentReader : List (Where × Text) → List (Where × Text × Text) × List Diag
  | [] => ([], [])
  | (w, d) :: rest =>
    let s := commentStep d
    let r := asteriskCommentReader rest
    ((w, s.1, s.2.1) :: r.1, (if s.2.2 then [Diag.W_WSH_EOL w] else []) ++ r.2)

/- ---------------------------------------------------------------------
   FileformatReader: per-source line-ending tracking.
--------------------------------------------------------------------- -/

/-- One entry of `FileformatReader.__iter__`'s `fileinfo` stack:
`[filename, is_dos, latest_has_lf, where]`.  The head of our `List FileInfo`
is the Python list's last element (top of stack). -/
structure FileInfo where
  filename : String
  is_dos : Option Bool
  latest_has_lf : Option Bool
  last_where : Where
deriving DecidableEq, Repr

/-- Diagnostic emitted for one popped frame in
`FileformatReader._pop_fileinfo` (`is_dos` and `latest_has_lf` are always
set when a frame is popped; the code asserts this). -/
def popDiag (f : FileInfo) : List Diag :=
  match f.is_dos, f.latest_has_lf with
  | some true, some true => [Diag.W_FILE_DOS_EOFCRLF f.last_where]
  | some false, some false => [Diag.W_FILE_UNIX_NOLF f.last_where]
  | _, _ => []

/-- `FileformatReader._pop_fileinfo`: pop and finalize frames until the
top's filename equals `stopAt` (`none` never matches, so it pops all). -/
def popFileinfo (stopAt : Option String) : List FileInfo → List FileInfo × List Diag
  | [] => ([], [])
  | f :: rest =>
    if stopAt = some f.filename then (f :: rest, [])
    else
      let r := popFileinfo stopAt rest
      (r.1, popDiag f ++ r.2)

/-- `where.filename in [i[0] for i in fileinfo]`. -/
def inStack (n : String) (st : List FileInfo) : Bool :=
  st.any (fun f => f.filename == n)

/-- The include-tracking prologue of `FileformatReader.__iter__`'s loop
body: if the top frame is not the line's source, either pop back to it
(return from include; the loop variable `where` is rebound to the frame's
stored position) or push a fresh frame.  Returns (top frame, frames below,
possibly-rebound `where`, pop diagnostics).  The `([], ds)` arm is dead:
`popFileinfo` stops at the matching frame, which `inStack` guarantees. -/
def adjustStack (st : List FileInfo) (w : Where) : FileInfo × List FileInfo × Where × List Diag :=
  match st with
  | [] => (⟨w.filename, none, none, w⟩, [], w, [])
  | top :: rest =>
    if top.filename = w.filename then
      (top, rest, w, [])
    else if inStack w.filename (top :: rest) then
      match popFileinfo (some w.filename) (top :: rest) with
      | (g :: st2, ds) => (g, st2, g.last_where, ds)
      | ([], ds) => (⟨w.filename, none, none, w⟩, [], w, ds)
    else
      (⟨w.filename, none, none, w⟩, top :: rest, w, [])

/-- One iteration of `FileformatReader.__iter__`'s loop body: adjust the
stack, detect the terminator, classify an unknown convention, emit
`W_FILE_DOS_BARELF` / `W_FILE_UNIX_CRLF`, update the frame, strip the
terminator.  Returns (new stack, yielded `where`, yielded data, diags). -/
def fileformatStep (st : List FileInfo) (w0 : Where) (d : Text) :
    List FileInfo × Where × Text × List Diag :=
  let a := adjustStack st w0
  let top := a.1
  let rest := a.2.1
  let w := a.2.2.1
  let ds0 := a.2.2.2
  let has_crlf := endsWithCRLF d
  let has_lf := endsWithLF d
  let is_dos := top.is_dos.getD (has_crlf || !has_lf)
  let top2 : FileInfo := ⟨top.filename, some is_dos, some has_lf, w⟩
  let ds1 :=
    if is_dos then
      if has_lf && !has_crlf then [Diag.W_FILE_DOS_BARELF w] else []
    else
      if has_crlf then [Diag.W_FILE_UNIX_CRLF w] else []
  (top2 :: rest, w, stripTerm d, ds0 ++ ds1)

/-- `FileformatReader.__iter__` from a given `fileinfo` stack: run the loop
body on each line, then finalize every remaining frame
(`self._pop_fileinfo(fileinfo, None)`). -/
def fileformatRun (st : List FileInfo) : List (Where × Text) → List (Where × Text) × List Diag
  | [] => ([], (popFileinfo none st).2)
  | (w, d) :: rest =>
    let s := fileformatStep st w d
    let r := fileformatRun s.1 rest
    ((s.2.1, s.2.2.1) :: r.1, s.2.2.2 ++ r.2)

/-- `FileformatReader.__iter__` (the stack starts empty). -/
def fileformatReader (ls : List (Where × Text)) : List (Where × Text) × List Diag :=
  fileformatRun [] ls

/- ---------------------------------------------------------------------
   The composed text pipeline (guard, tracker, splitter), as in
   `FileReader`'s mixin chain after decoding.
--------------------------------------------------------------------- -/

/-- Stages 3-5 of `FileReader` on already-decoded lines: control-character
guard, line-ending tracker, comment/escape splitter.  Outputs the Line
Records `(position, code, comment)` and all diagnostics in stage order. -/
def textPipeline (ls : List (Where × Text)) : List (Where × Text × Text) × List Diag :=
  let r1 := noCtrlReader ls
  let r2 := fileformatReader r1.1
  let r3 := asteriskCommentReader r2.1
  (r3.1, r1.2 ++ r2.2 ++ r3.2)

/- ---------------------------------------------------------------------
   BinFileReader: the source stack.
--------------------------------------------------------------------- -/

/-- One open source on `BinFileReader`'s stack: `_files[k]` (identified by
`handleId`), `_generators[k]` (the not-yet-consumed `lines`, with `pos`
lines already consumed by `enumerate`) and `_filenames[k]`.  The head of
our list is the top of the stack (most recent include). -/
structure OpenFile where
  name : String
  lines : List (List Nat)
  pos : Nat
  handleId : Nat
deriving DecidableEq, Repr

/-- `BinFileReader.__iter__` restricted to one frame: yield
`(Where(name, i + 1, line), line)` for each remaining line. -/
def drainLines (name : String) (pos : Nat) : List (List Nat) → List (Where × List Nat)
  | [] => []
  | l :: ls => (⟨name, pos + 1, l⟩, l) :: drainLines name (pos + 1) ls

/-- `BinFileReader.__iter__` run to exhaustion from a given stack: drain
the top frame, close it (its handle id is recorded, in order), pop,
continue with the rest until the stack is empty. -/
def binRun : List OpenFile → List (Where × List Nat) × List Nat
  | [] => ([], [])
  | f :: rest =>
    let r := binRun rest
    (drainLines f.name f.pos f.lines ++ r.1, f.handleId :: r.2)

/-- Consumer pulls against one frame's remaining lines: yields until the
budget `k` or the lines run out.  Returns (yields, remaining budget); a
positive remaining budget means the consumer pulled again after the last
line, which is the pull that closes the exhausted file. -/
def takeFromLines (k : Nat) (name : String) (pos : Nat) :
    List (List Nat) → List (Where × List Nat) × Nat :=
  fun lines =>
    match k, lines with
    | 0, _ => ([], 0)
    | k' + 1, [] => ([], k' + 1)
    | k' + 1, l :: ls =>
      let r := takeFromLines k' name (pos + 1) ls
      ((⟨name, pos + 1, l⟩, l) :: r.1, r.2)

/-- `BinFileReader.__iter__` abandoned by the consumer after `k` pulls:
the generator is left suspended right after its `k`-th yield, so only the
closes that happened before that yield are performed; nothing in
`BinFileReader` closes the files that are still open. -/
def binRunTake : Nat → List OpenFile → List (Where × List Nat) × List Nat
  | _, [] => ([], [])
  | k, f :: rest =>
    let r := takeFromLines k f.name f.pos f.lines
    if r.2 = 0 then (r.1, [])
    else
      let r2 := binRunTake r.2 rest
      (r.1 ++ r2.1, f.handleId :: r2.2)

/- ---------------------------------------------------------------------
   Predicates used by the idempotence (second-run) simulation.
--------------------------------------------------------------------- -/

/-- Text containing no LF at all (true of every cleaned line). -/
def noLFText (d : Text) : Bool := d.all (fun c => !(c == 10))

/-- Two tracker frames agreeing on filename and stored position (their
classification fields may differ between the first and the second run). -/
def Aligned (x y : FileInfo) : Prop :=
  x.filename = y.filename ∧ x.last_where = y.last_where

/-- Every frame stores a position from its own source (invariant of every
reachable tracker stack). -/
def WFStack (st : List FileInfo) : Prop :=
  ∀ f ∈ st, f.last_where.filename = f.filename

/-- Every frame is DOS-classified with an unterminated last line (the
state of every second-run stack, since cleaned lines hold no LF). -/
def DOSUntermStack (st : List FileInfo) : Prop :=
  ∀ f ∈ st, f.is_dos = some true ∧ f.latest_has_lf = some false

/- =====================================================================
   Helper lemmas: indexing, whitespace stripping, the splitter.
===================================================================== -/

theorem findSemi_lt_length : ∀ (d : Text) (i : Nat), findSemi d = some i → i < d.length := by
  intro d
  induction d with
  | nil => intro i h; simp [findSemi] at h
  | cons c rest ih =>
    intro i h
    simp only [findSemi] at h
    by_cases hc : c = 59
    · simp [hc] at h
      simp [List.length_cons]
      omega
    · simp [hc] at h
      obtain ⟨j, hj, hji⟩ := h
      have := ih j hj
      simp [List.length_cons]
      omega

theorem findSemi_at0 : ∀ (d : Text) (i : Nat), findSemi d = some i → at0 d i = 59 := by
  intro d
  induction d with
  | nil => intro i h; simp [findSemi] at h
  | cons c rest ih =>
    intro i h
    simp only [findSemi] at h
    by_cases hc : c = 59
    · simp [hc] at h
      subst h
      simpa [at0] using hc
    · simp [hc] at h
      obtain ⟨j, hj, hji⟩ := h
      subst hji
      simpa [at0] using ih j hj

theorem at0_mem : ∀ (d : Text) (k : Nat), k < d.length → at0 d k ∈ d := by
  intro d
  induction d with
  | nil => intro k h; simp at h
  | cons c rest ih =>
    intro k h
    cases k with
    | zero => simp [at0]
    | succ k' =>
      simp only [at0]
      exact List.mem_cons_of_mem _ (ih k' (by simp at h; omega))

theorem at0_take : ∀ (d : Text) (n m : Nat), m < n → at0 (d.take n) m = at0 d m := by
  intro d
  induction d with
  | nil => intro n m _; simp [List.take_nil]
  | cons c rest ih =>
    intro n m hmn
    cases n with
    | zero => omega
    | succ n' =>
      cases m with
      | zero => simp [List.take, at0]
      | succ m' =>
        simp only [List.take, at0]
        exact ih n' m' (by omega)

theorem backWs_le (d : Text) : ∀ i, backWs d i ≤ i := by
  intro i
  induction i with
  | zero => simp [backWs]
  | succ i' ih =>
    simp only [backWs]
    by_cases h : isWsp (at0 d i') = true
    · simp [h]; omega
    · simp [h]

theorem backWs_agree (d e : Text) : ∀ i, (∀ m, m < i → at0 d m = at0 e m) → backWs d i = backWs e i := by
  intro i
  induction i with
  | zero => intro _; rfl
  | succ i' ih =>
    intro h
    simp only [backWs]
    rw [h i' (by omega)]
    by_cases he : isWsp (at0 e i') = true
    · simp [he]
      exact ih (fun m hm => h m (by omega))
    · simp [he]

theorem backWs_take (d : Text) (n : Nat) : ∀ k, k ≤ n → backWs (d.take n) k = backWs d k := by
  intro k hk
  exact backWs_agree (d.take n) d k (fun m hm => at0_take d n m (by omega))

theorem backWs_zero_or_not_wsp (d : Text) :
    ∀ i, backWs d i = 0 ∨ isWsp (at0 d (backWs d i - 1)) = false := by
  intro i
  induction i with
  | zero => left; rfl
  | succ i' ih =>
    simp only [backWs]
    by_cases h : isWsp (at0 d i') = true
    · simp [h]; exact ih
    · simp [h]

theorem backWs_full (d : Text) (h : endsWithWsp d = false) : backWs d d.length = d.length := by
  cases d with
  | nil => rfl
  | cons c rest =>
    simp only [endsWithWsp, List.isEmpty_cons, Bool.not_false, Bool.true_and,
      List.length_cons, Nat.add_sub_cancel] at h
    simp only [List.length_cons, backWs, h]
    simp

theorem rstripWs_eq_self (d : Text) (h : endsWithWsp d = false) : rstripWs d = d := by
  unfold rstripWs
  rw [backWs_full d h, List.take_length]

theorem endsWithWsp_take (d : Text) (j : Nat) (hj : j ≤ d.length) (hj0 : j ≠ 0)
    (hw : isWsp (at0 d (j - 1)) = false) : endsWithWsp (d.take j) = false := by
  have hlen : (d.take j).length = j := by rw [List.length_take]; omega
  have hne : (d.take j).isEmpty = false := by
    cases hq : d.take j with
    | nil => rw [hq] at hlen; simp at hlen; omega
    | cons a l => simp
  simp only [endsWithWsp, hne, Bool.not_false, Bool.true_and, hlen]
  rw [at0_take d j (j - 1) (by omega)]
  exact hw

theorem rstripWs_not_wsp (d : Text) : endsWithWsp (rstripWs d) = false := by
  unfold rstripWs
  by_cases hj0 : backWs d d.length = 0
  · rw [hj0]; simp [endsWithWsp]
  · rcases backWs_zero_or_not_wsp d d.length with h | h
    · exact absurd h hj0
    · exact endsWithWsp_take d _ (backWs_le d _) hj0 h

theorem hasEscSemi_spec :
    ∀ (d : Text), hasEscSemi d = false → ∀ k, k + 1 < d.length →
      ¬(at0 d k = 92 ∧ at0 d (k + 1) = 59) := by
  intro d
  induction d with
  | nil => intro _ k hk; simp at hk
  | cons a rest ih =>
    intro h k hk
    cases rest with
    | nil => simp at hk
    | cons b rest' =>
      simp only [hasEscSemi, Bool.or_eq_false_iff, Bool.and_eq_false_iff] at h
      obtain ⟨h1, h2⟩ := h
      cases k with
      | zero =>
        rintro ⟨ha, hb⟩
        simp only [at0] at ha hb
        rcases h1 with h1 | h1 <;> simp [ha, hb] at h1
      | succ k' =>
        intro hc
        simp only [at0] at hc
        exact ih h2 k' (by simp at hk ⊢; omega) hc

theorem contains_at0 (d : Text) (h : d.contains 92 = false) :
    ∀ k, k < d.length → at0 d k ≠ 92 := by
  intro k hk he
  have hm : (92 : Nat) ∈ d := he ▸ at0_mem d k hk
  have ht : d.elem 92 = true := List.elem_eq_true_of_mem hm
  simp only [List.contains] at h
  rw [h] at ht
  exact Bool.noConfusion ht

theorem escapeSplit_none (d : Text) (h : findSemi d = none) : escapeSplit d = (d, []) := by
  unfold escapeSplit
  cases d with
  | nil => rfl
  | cons c rest => simp [escapeSplitGo, h]

theorem escapeSplit_stop (d : Text) (i : Nat) (h : findSemi d = some i)
    (hc : i = 0 ∨ at0 d (i - 1) ≠ 92) : escapeSplit d = (d.take i, d.drop i) := by
  unfold escapeSplit
  cases d with
  | nil => simp [findSemi] at h
  | cons c rest =>
    simp only [List.length_cons, escapeSplitGo, h]
    have : ¬(i ≠ 0 ∧ (at0 (c :: rest) (i - 1) == 92) = true) := by
      rintro ⟨hi0, hbeq⟩
      rcases hc with hc | hc
      · exact hi0 hc
      · exact hc (by simpa using hbeq)
    simp only [this, if_false]

theorem take_drop_append (d : Text) (i j : Nat) (h : j ≤ i) :
    (d.take i).drop j ++ d.drop i = d.drop j := by
  rw [List.drop_take]
  have hd : d.drop i = (d.drop j).drop (i - j) := by
    rw [List.drop_drop]
    congr 1
    omega
  rw [hd, List.take_append_drop]

theorem splitData_concat (d : Text) (h : hasEscSemi d = false) :
    (splitData d).1 ++ (splitData d).2 = d := by
  unfold splitData
  by_cases hb : d.contains 92 = true
  · simp only [hb, if_true]
    unfold escapeSplitFull
    cases hfs : findSemi d with
    | none =>
      rw [escapeSplit_none d hfs]
      simp only [List.append_nil]
      exact List.take_append_drop _ _
    | some i =>
      have hstop : i = 0 ∨ at0 d (i - 1) ≠ 92 := by
        by_cases hi0 : i = 0
        · exact Or.inl hi0
        · right
          intro he
          have hi := findSemi_lt_length d i hfs
          have h59 := findSemi_at0 d i hfs
          have := hasEscSemi_spec d h (i - 1) (by omega)
          apply this
          constructor
          · exact he
          · have : i - 1 + 1 = i := by omega
            rw [this]
            exact h59
      rw [escapeSplit_stop d i hfs hstop]
      dsimp only
      rw [← List.append_assoc, List.take_append_drop, List.take_append_drop]
  · simp only [hb, if_false]
    unfold simple_comment_split
    cases hfs : findSemi d with
    | none => simp
    | some i => exact List.take_append_drop _ _

theorem commentStep_eq (d : Text) :
    commentStep d = ((splitData (rstripWs d)).1, (splitData (rstripWs d)).2, endsWithWsp d) := by
  unfold commentStep
  cases hE : endsWithWsp d with
  | false => simp [hE, rstripWs_eq_self d hE]
  | true => simp [hE]

/-- C6: for every line text with no escaped delimiter (no backslash
immediately before a `;`) and not ending in space or tab, the splitter's
outputs satisfy `code_text ++ comment_text = input text`: the split loses
and reorders nothing. -/
theorem comment_split_roundtrip (d : Text) (h1 : hasEscSemi d = false)
    (h2 : endsWithWsp d = false) :
    (commentStep d).1 ++ (commentStep d).2.1 = d := by
  rw [commentStep_eq]
  dsimp only
  rw [rstripWs_eq_self d h2]
  exact splitData_concat d h1

/-- Witness for C6 at a concrete line. -/
theorem comment_split_roundtrip_witness :
    hasEscSemi (strToText "exten => 1,1,Dial(SIP/x); route \\ x; y") = false ∧
    endsWithWsp (strToText "exten => 1,1,Dial(SIP/x); route \\ x; y") = false ∧
    (commentStep (strToText "exten => 1,1,Dial(SIP/x); route \\ x; y")).1
      ++ (commentStep (strToText "exten => 1,1,Dial(SIP/x); route \\ x; y")).2.1
      = strToText "exten => 1,1,Dial(SIP/x); route \\ x; y" :=
  ⟨by decide, by decide,
    comment_split_roundtrip (strToText "exten => 1,1,Dial(SIP/x); route \\ x; y")
      (by decide) (by decide)⟩

/-- C7: on the line `foo\; bar; baz` the splitter produces code
`foo; bar` and comment `; baz`: the escaped delimiter becomes a literal
`;` kept in the code, and the first unescaped `;` starts the comment. -/
theorem escape_fidelity_example :
    commentStep (strToText "foo\\; bar; baz")
      = (strToText "foo; bar", strToText "; baz", false) := by decide

/-- C10 counterexample: on `"a "` (no backslash, trailing space, no `;`)
the fast path keeps the text intact while the general escape loop's final
whitespace move pushes the trailing space into the comment, so the two
differ on a backslash-free input. -/
theorem fastpath_counterexample :
    simple_comment_split (strToText "a ") ≠ escapeSplitFull (strToText "a ") := by decide

/-- C10 amended: for every line text containing no backslash and not
ending in space or tab (as holds for every text reaching the splitter
after its trailing-whitespace strip), the fast path
`simple_comment_split` computes the same (code, comment) pair as the
general escape-scanning loop followed by the whitespace move. -/
theorem fastpath_agrees (d : Text) (h1 : d.contains 92 = false)
    (h2 : endsWithWsp d = false) :
    simple_comment_split d = escapeSplitFull d := by
  unfold escapeSplitFull
  cases hfs : findSemi d with
  | none =>
    rw [escapeSplit_none d hfs]
    unfold simple_comment_split
    rw [hfs]
    dsimp only
    rw [backWs_full d h2, List.take_length, List.drop_length]
    simp
  | some i =>
    have hi := findSemi_lt_length d i hfs
    have hstop : i = 0 ∨ at0 d (i - 1) ≠ 92 := by
      by_cases hi0 : i = 0
      · exact Or.inl hi0
      · exact Or.inr (contains_at0 d h1 (i - 1) (by omega))
    rw [escapeSplit_stop d i hfs hstop]
    unfold simple_comment_split
    rw [hfs]
    dsimp only
    have hlen : (d.take i).length = i := by rw [List.length_take]; omega
    rw [hlen, backWs_take d i i le_rfl]
    have hle := backWs_le d i
    have e1 : (d.take i).take (backWs d i) = d.take (backWs d i) := by
      rw [List.take_take, min_eq_left hle]
    have e2 : (d.take i).drop (backWs d i) ++ d.drop i = d.drop (backWs d i) :=
      take_drop_append d i (backWs d i) hle
    rw [e1, e2]

/-- Witness for C10's amended claim at a concrete line. -/
theorem fastpath_agrees_witness :
    (strToText "exten => 1,1,NoOp() ; done").contains 92 = false ∧
    endsWithWsp (strToText "exten => 1,1,NoOp() ; done") = false ∧
    simple_comment_split (strToText "exten => 1,1,NoOp() ; done")
      = escapeSplitFull (strToText "exten => 1,1,NoOp() ; done") :=
  ⟨by decide, by decide,
    fastpath_agrees (strToText "exten => 1,1,NoOp() ; done") (by decide) (by decide)⟩

/- =====================================================================
   C1: decoder fallback; C4: source-stack handle closing.
===================================================================== -/

/-- C1 (exhibit): byte `0x81` fails UTF-8 decoding, and the cp1252
fallback also fails on it (undefined table entry), so the decoder emits
`E_FILE_UTF8_BAD` and then raises instead of always succeeding; on a
byte line where cp1252 is defined (`0x80`), the fallback succeeds with
exactly one `E_FILE_UTF8_BAD`. -/
theorem utf8_fallback_partial :
    utf8Decode? [0x81] = none ∧
    cp1252Decode? [0x81] = none ∧
    encodingReader [(⟨"pipe.conf", 1, [0x81]⟩, [0x81])]
      = (none, [Diag.E_FILE_UTF8_BAD ⟨"pipe.conf", 1, [0x81]⟩]) ∧
    encodingReader [(⟨"pipe.conf", 1, [0x80, 10]⟩, [0x80, 10])]
      = (some [(⟨"pipe.conf", 1, [0x80, 10]⟩, [0x20AC, 10])],
         [Diag.E_FILE_UTF8_BAD ⟨"pipe.conf", 1, [0x80, 10]⟩]) := by decide

/-- C4 counterexample: a stack holding one open two-line file, abandoned
by the consumer after one pull, performs no close at all (`BinFileReader`
has no teardown path), while running to exhaustion closes it. -/
theorem binreader_abandon_counterexample :
    (binRunTake 1 [⟨"extensions.conf", [[101], [102]], 0, 7⟩]).2 = [] ∧
    (binRun [⟨"extensions.conf", [[101], [102]], 0, 7⟩]).2 = [7] := by decide

/-- C4 amended: when `BinFileReader.__iter__` is run to exhaustion, every
handle on the stack is closed exactly once (the close events are exactly
the stack's handles, top first); it is only on early abandonment that the
reader itself performs no cleanup of still-open handles. -/
theorem binreader_closes_on_exhaustion (fs : List OpenFile) :
    (binRun fs).2 = fs.map (fun f => f.handleId) := by
  induction fs with
  | nil => rfl
  | cons f rest ih => simp [binRun, ih]

/- =====================================================================
   Line-ending tracker lemmas and claims C2, C8, C9.
===================================================================== -/

theorem endsWithLF_of_CRLF (d : Text) (h : endsWithCRLF d = true) : endsWithLF d = true := by
  cases d with
  | nil => simp [endsWithCRLF] at h
  | cons c rest =>
    simp only [endsWithCRLF, Bool.and_eq_true, decide_eq_true_eq, beq_iff_eq] at h
    simp only [endsWithLF, List.isEmpty_cons, Bool.not_false, Bool.true_and, beq_iff_eq]
    exact h.2

theorem adjustStack_nil (w : Where) :
    adjustStack [] w = (⟨w.filename, none, none, w⟩, [], w, []) := rfl

theorem adjustStack_top_match (f : FileInfo) (rest : List FileInfo) (w : Where)
    (h : f.filename = w.filename) :
    adjustStack (f :: rest) w = (f, rest, w, []) := by
  simp only [adjustStack]
  rw [if_pos h]

theorem adjustStack_push (f : FileInfo) (rest : List FileInfo) (w : Where)
    (h1 : f.filename ≠ w.filename) (h2 : inStack w.filename (f :: rest) = false) :
    adjustStack (f :: rest) w = (⟨w.filename, none, none, w⟩, f :: rest, w, []) := by
  simp only [adjustStack]
  rw [if_neg h1, if_neg (by rw [h2]; exact Bool.false_ne_true)]

theorem adjustStack_pop (f : FileInfo) (rest : List FileInfo) (w : Where)
    (g : FileInfo) (st2 : List FileInfo) (ds : List Diag)
    (h1 : f.filename ≠ w.filename) (h2 : inStack w.filename (f :: rest) = true)
    (hpop : popFileinfo (some w.filename) (f :: rest) = (g :: st2, ds)) :
    adjustStack (f :: rest) w = (g, st2, g.last_where, ds) := by
  simp only [adjustStack]
  rw [if_neg h1, if_pos h2, hpop]

theorem fileformatStep_eq (st : List FileInfo) (w0 : Where) (d : Text)
    (top : FileInfo) (rest : List FileInfo) (w : Where) (ds0 : List Diag)
    (h : adjustStack st w0 = (top, rest, w, ds0)) :
    fileformatStep st w0 d =
      (⟨top.filename, some (top.is_dos.getD (endsWithCRLF d || !endsWithLF d)),
        some (endsWithLF d), w⟩ :: rest, w, stripTerm d,
       ds0 ++ (if top.is_dos.getD (endsWithCRLF d || !endsWithLF d) then
         (if endsWithLF d && !endsWithCRLF d then [Diag.W_FILE_DOS_BARELF w] else [])
       else (if endsWithCRLF d then [Diag.W_FILE_UNIX_CRLF w] else []))) := by
  unfold fileformatStep
  rw [h]

theorem c2_run (f : String) :
    ∀ (ls : List (Where × Text)) (lw : Where),
      (∀ p ∈ ls, (p.1).filename = f) → (∀ p ∈ ls, endsWithCRLF p.2 = true) →
      (fileformatRun [⟨f, some true, some true, lw⟩] ls).2
        = [Diag.W_FILE_DOS_EOFCRLF ((ls.map (fun p => p.1)).getLastD lw)] := by
  intro ls
  induction ls with
  | nil =>
    intro lw _ _
    simp [fileformatRun, popFileinfo, popDiag]
  | cons p rest ih =>
    intro lw hf hcrlf
    obtain ⟨w, d⟩ := p
    have hwf : w.filename = f := hf (w, d) (by simp)
    have hcr : endsWithCRLF d = true := hcrlf (w, d) (by simp)
    have hlf : endsWithLF d = true := endsWithLF_of_CRLF d hcr
    simp only [fileformatRun]
    rw [fileformatStep_eq _ _ d _ _ _ _
      (adjustStack_top_match ⟨f, some true, some true, lw⟩ [] w hwf.symm)]
    dsimp only
    simp only [Option.getD_some, if_true, hcr, hlf, Bool.not_true, Bool.and_false,
      if_false, List.nil_append, List.append_nil]
    rw [ih w (fun q hq => hf q (by simp [hq])) (fun q hq => hcrlf q (by simp [hq]))]
    rw [List.map_cons, List.getLastD_cons]
    simp

/-- C2 counterexample: a single top-level file whose every line (the last
included) ends with CRLF gets exactly one `W_FILE_DOS_EOFCRLF` at
end-of-sequence finalization — not zero format diagnostics. -/
theorem crlf_file_counterexample :
    (fileformatReader [(⟨"a.conf", 1, []⟩, strToText "foo\r\n"),
                       (⟨"a.conf", 2, []⟩, strToText "bar\r\n")]).2
      = [Diag.W_FILE_DOS_EOFCRLF ⟨"a.conf", 2, []⟩] ∧
    (fileformatReader [(⟨"a.conf", 1, []⟩, strToText "foo\r\n"),
                       (⟨"a.conf", 2, []⟩, strToText "bar\r\n")]).2 ≠ [] := by decide

/-- C2 amended: for every nonempty single-source input whose every line
(the last included) ends with CRLF, the tracker emits no
`W_FILE_DOS_BARELF`, `W_FILE_UNIX_CRLF` or `W_FILE_UNIX_NOLF`, and
exactly one `W_FILE_DOS_EOFCRLF` at finalization, at the last line's
position (the code flags a DOS file whose last line retains its CRLF). -/
theorem crlf_file_single_diag (ls : List (Where × Text)) (f : String) (hne : ls ≠ [])
    (hf : ∀ p ∈ ls, (p.1).filename = f) (hcrlf : ∀ p ∈ ls, endsWithCRLF p.2 = true) :
    (fileformatReader ls).2
      = [Diag.W_FILE_DOS_EOFCRLF ((ls.map (fun p => p.1)).getLastD ⟨f, 0, []⟩)] := by
  cases ls with
  | nil => exact absurd rfl hne
  | cons p rest =>
    obtain ⟨w, d⟩ := p
    have hwf : w.filename = f := hf (w, d) (by simp)
    have hcr : endsWithCRLF d = true := hcrlf (w, d) (by simp)
    have hlf : endsWithLF d = true := endsWithLF_of_CRLF d hcr
    unfold fileformatReader
    simp only [fileformatRun]
    rw [fileformatStep_eq _ _ d _ _ _ _ (adjustStack_nil w)]
    dsimp only
    simp only [Option.getD_none, hcr, hlf, Bool.not_true, Bool.or_false, if_true,
      Bool.and_false, if_false, List.nil_append]
    rw [hwf]
    rw [c2_run f rest w (fun q hq => hf q (by simp [hq])) (fun q hq => hcrlf q (by simp [hq]))]
    rw [List.map_cons, List.getLastD_cons]
    simp

/-- Witness for C2's amended claim at a concrete two-line CRLF file. -/
theorem crlf_file_single_diag_witness :
    (fileformatReader [(⟨"a.conf", 1, []⟩, strToText "one\r\n"),
                       (⟨"a.conf", 2, []⟩, strToText "two\r\n")]).2
      = [Diag.W_FILE_DOS_EOFCRLF ⟨"a.conf", 2, []⟩] := by
  have h := crlf_file_single_diag
    [(⟨"a.conf", 1, []⟩, strToText "one\r\n"), (⟨"a.conf", 2, []⟩, strToText "two\r\n")]
    "a.conf" (by simp) (by decide) (by decide)
  simpa using h

/-- C8: while a source's convention is unknown, the line just seen
classifies it (DOS iff it ends CRLF or has no terminator); a line of a
DOS-classified source ending in bare LF emits `W_FILE_DOS_BARELF`; a line
of a Unix-classified source ending in CRLF emits `W_FILE_UNIX_CRLF`; and
the very first line (empty stack) classifies the fresh frame the same
way. -/
theorem tracker_classification (f : FileInfo) (rest : List FileInfo) (w : Where) (d : Text)
    (htop : f.filename = w.filename) :
    (f.is_dos = none →
      (fileformatStep (f :: rest) w d).1.head?
        = some ⟨f.filename, some (endsWithCRLF d || !endsWithLF d), some (endsWithLF d), w⟩) ∧
    (f.is_dos = some true → endsWithLF d = true → endsWithCRLF d = false →
      (fileformatStep (f :: rest) w d).2.2.2 = [Diag.W_FILE_DOS_BARELF w]) ∧
    (f.is_dos = some false → endsWithCRLF d = true →
      (fileformatStep (f :: rest) w d).2.2.2 = [Diag.W_FILE_UNIX_CRLF w]) ∧
    ((fileformatStep [] w d).1
      = [⟨w.filename, some (endsWithCRLF d || !endsWithLF d), some (endsWithLF d), w⟩]) := by
  refine ⟨?_, ?_, ?_, ?_⟩
  · intro hnone
    rw [fileformatStep_eq _ _ d _ _ _ _ (adjustStack_top_match f rest w htop)]
    simp [hnone]
  · intro hdos hlf hcr
    rw [fileformatStep_eq _ _ d _ _ _ _ (adjustStack_top_match f rest w htop)]
    simp [hdos, hlf, hcr]
  · intro hunix hcr
    rw [fileformatStep_eq _ _ d _ _ _ _ (adjustStack_top_match f rest w htop)]
    simp [hunix, hcr]
  · rw [fileformatStep_eq _ _ d _ _ _ _ (adjustStack_nil w)]
    simp

/-- Witness for C8 at concrete frames and lines. -/
theorem tracker_classification_witness :
    (fileformatStep [⟨"a.conf", some true, some true, ⟨"a.conf", 1, []⟩⟩]
        ⟨"a.conf", 2, []⟩ (strToText "x\n")).2.2.2
      = [Diag.W_FILE_DOS_BARELF ⟨"a.conf", 2, []⟩] ∧
    (fileformatStep [⟨"a.conf", some false, some true, ⟨"a.conf", 1, []⟩⟩]
        ⟨"a.conf", 2, []⟩ (strToText "x\r\n")).2.2.2
      = [Diag.W_FILE_UNIX_CRLF ⟨"a.conf", 2, []⟩] :=
  ⟨((tracker_classification ⟨"a.conf", some true, some true, ⟨"a.conf", 1, []⟩⟩ []
      ⟨"a.conf", 2, []⟩ (strToText "x\n") rfl).2.1) rfl (by decide) (by decide),
   ((tracker_classification ⟨"a.conf", some false, some true, ⟨"a.conf", 1, []⟩⟩ []
      ⟨"a.conf", 2, []⟩ (strToText "x\r\n") rfl).2.2.1) rfl (by decide)⟩

/- =====================================================================
   C9: positions carried unchanged except the include-pop rebinding.
===================================================================== -/

theorem inStack_cons (n : String) (f : FileInfo) (rest : List FileInfo) :
    inStack n (f :: rest) = ((f.filename == n) || inStack n rest) := by
  simp [inStack, List.any_cons]

theorem noCtrlReader_outputs : ∀ ls : List (Where × Text), (noCtrlReader ls).1 = ls := by
  intro ls
  induction ls with
  | nil => rfl
  | cons p rest ih =>
    obtain ⟨w, d⟩ := p
    simp [noCtrlReader, ih]

theorem asteriskCommentReader_wheres :
    ∀ ls : List (Where × Text),
      (asteriskCommentReader ls).1.map (fun t => t.1) = ls.map (fun p => p.1) := by
  intro ls
  induction ls with
  | nil => rfl
  | cons p rest ih =>
    obtain ⟨w, d⟩ := p
    simp [asteriskCommentReader, ih]

theorem encodingReader_wheres :
    ∀ (bls : List (Where × List Nat)) (outs : List (Where × Text)),
      (encodingReader bls).1 = some outs →
      outs.map (fun p => p.1) = bls.map (fun p => p.1) := by
  intro bls
  induction bls with
  | nil =>
    intro outs h
    simp only [encodingReader, Option.some.injEq] at h
    subst h
    rfl
  | cons p rest ih =>
    intro outs h
    obtain ⟨w, bs⟩ := p
    simp only [encodingReader] at h
    cases hu : utf8Decode? bs with
    | some cs =>
      rw [hu] at h
      dsimp only at h
      cases hr : (encodingReader rest).1 with
      | none => rw [hr] at h; simp at h
      | some outs' =>
        rw [hr] at h
        simp at h
        subst h
        simp [ih outs' hr]
    | none =>
      rw [hu] at h
      cases hc : cp1252Decode? bs with
      | some cs =>
        rw [hc] at h
        dsimp only at h
        cases hr : (encodingReader rest).1 with
        | none => rw [hr] at h; simp at h
        | some outs' =>
          rw [hr] at h
          simp at h
          subst h
          simp [ih outs' hr]
      | none => rw [hc] at h; simp at h

/-- C9: the position attached to a line is carried through the stages
unchanged — the guard and the splitter yield it as-is, the decoder keeps
the position list intact — except in the line-ending tracker on an
include-stack pop (top frame differs and the filename exists deeper in
the stack), where the yielded position is rebound to the stored last
position of the frame popped back to. -/
theorem position_carried (st : List FileInfo) (f : FileInfo) (rest : List FileInfo)
    (w : Where) (d : Text) :
    (st = f :: rest → f.filename = w.filename → (fileformatStep st w d).2.1 = w) ∧
    (inStack w.filename st = false → (fileformatStep st w d).2.1 = w) ∧
    (st = f :: rest → f.filename ≠ w.filename → inStack w.filename st = true →
      ∀ g st2 ds, popFileinfo (some w.filename) st = (g :: st2, ds) →
      (fileformatStep st w d).2.1 = g.last_where) ∧
    (∀ ls : List (Where × Text), (noCtrlReader ls).1 = ls) ∧
    (∀ ls : List (Where × Text),
      (asteriskCommentReader ls).1.map (fun t => t.1) = ls.map (fun p => p.1)) ∧
    (∀ (bls : List (Where × List Nat)) (outs : List (Where × Text)),
      (encodingReader bls).1 = some outs →
      outs.map (fun p => p.1) = bls.map (fun p => p.1)) := by
  refine ⟨?_, ?_, ?_, noCtrlReader_outputs, asteriskCommentReader_wheres, encodingReader_wheres⟩
  · intro hst htop
    subst hst
    rw [fileformatStep_eq _ _ d _ _ _ _ (adjustStack_top_match f rest w htop)]
  · intro hni
    cases hst : st with
    | nil => rw [fileformatStep_eq _ _ d _ _ _ _ (adjustStack_nil w)]
    | cons f' rest' =>
      rw [hst] at hni
      rw [inStack_cons] at hni
      simp only [Bool.or_eq_false_iff, beq_eq_false_iff_ne] at hni
      rw [fileformatStep_eq _ _ d _ _ _ _ (adjustStack_push f' rest' w hni.1 (by
        rw [inStack_cons]
        simp [hni.1, hni.2]))]
  · intro hst htop hin g st2 ds hpop
    subst hst
    rw [fileformatStep_eq _ _ d _ _ _ _ (adjustStack_pop f rest w g st2 ds htop hin hpop)]

/-- Witness for C9: a pop back from `b.conf` to `a.conf` rebinds the
yielded position to `a.conf`'s stored last position. -/
theorem position_carried_witness :
    (fileformatStep
        [⟨"b.conf", some true, some true, ⟨"b.conf", 2, []⟩⟩,
         ⟨"a.conf", some false, some true, ⟨"a.conf", 1, []⟩⟩]
        ⟨"a.conf", 2, []⟩ (strToText "x\n")).2.1 = ⟨"a.conf", 1, []⟩ :=
  (position_carried
      [⟨"b.conf", some true, some true, ⟨"b.conf", 2, []⟩⟩,
       ⟨"a.conf", some false, some true, ⟨"a.conf", 1, []⟩⟩]
      ⟨"b.conf", some true, some true, ⟨"b.conf", 2, []⟩⟩
      [⟨"a.conf", some false, some true, ⟨"a.conf", 1, []⟩⟩]
      ⟨"a.conf", 2, []⟩ (strToText "x\n")).2.2.1 rfl (by decide) (by decide)
      ⟨"a.conf", some false, some true, ⟨"a.conf", 1, []⟩⟩ []
      [Diag.W_FILE_DOS_EOFCRLF ⟨"b.conf", 2, []⟩] (by decide)

/- =====================================================================
   C5: include isolation and child finalization.
===================================================================== -/

/-- C5 counterexample: a Unix parent includes a DOS-classified child
whose last line lacks its terminator; the tracker emits NO diagnostic at
all — in the code the DOS finalize rule fires when the last line RETAINS
its terminator, not when it lacks one. -/
theorem include_finalize_counterexample :
    (fileformatReader
      [(⟨"a.conf", 1, []⟩, strToText "a\n"), (⟨"b.conf", 1, []⟩, strToText "x\r\n"),
       (⟨"b.conf", 2, []⟩, strToText "y"), (⟨"a.conf", 2, []⟩, strToText "b\n")]).2 = [] := by
  decide

theorem c5_run (c p : String) (hcp : c ≠ p) :
    ∀ (cls : List (Where × Text)) (lwc pwS : Where),
      (∀ q ∈ cls, (q.1).filename = c) → (∀ q ∈ cls, endsWithCRLF q.2 = true) →
      ∀ (pw2 : Where) (pd2 : Text), pw2.filename = p → endsWithLF pd2 = true →
      (fileformatRun [⟨c, some true, some true, lwc⟩, ⟨p, some false, some true, pwS⟩]
          (cls ++ [(pw2, pd2)])).2
        = Diag.W_FILE_DOS_EOFCRLF ((cls.map (fun q => q.1)).getLastD lwc)
            :: (if endsWithCRLF pd2 then [Diag.W_FILE_UNIX_CRLF pwS] else []) := by
  intro cls
  induction cls with
  | nil =>
    intro lwc pwS hcf hcc pw2 pd2 hpw2 hlf2
    have hp' : p ≠ c := Ne.symm hcp
    have hpop : popFileinfo (some pw2.filename)
        [⟨c, some true, some true, lwc⟩, ⟨p, some false, some true, pwS⟩]
        = ([⟨p, some false, some true, pwS⟩], [Diag.W_FILE_DOS_EOFCRLF lwc]) := by
      rw [hpw2]
      simp [popFileinfo, popDiag, hp']
    simp only [List.nil_append, fileformatRun]
    rw [fileformatStep_eq _ _ pd2 _ _ _ _
      (adjustStack_pop _ _ _ _ _ _ (by rw [hpw2]; exact hcp) (by
        rw [inStack_cons, inStack_cons, hpw2]
        simp [hp'.symm]) hpop)]
    dsimp only
    simp only [Option.getD_some, Bool.false_eq_true, if_false, hlf2]
    simp [fileformatRun, popFileinfo, popDiag, hlf2]
  | cons q rest ih =>
    intro lwc pwS hcf hcc pw2 pd2 hpw2 hlf2
    obtain ⟨cw, cd⟩ := q
    have hcwf : cw.filename = c := hcf (cw, cd) (by simp)
    have hccd : endsWithCRLF cd = true := hcc (cw, cd) (by simp)
    have hlfc := endsWithLF_of_CRLF cd hccd
    simp only [List.cons_append, fileformatRun]
    rw [fileformatStep_eq _ _ cd _ _ _ _ (adjustStack_top_match _ _ _ hcwf.symm)]
    dsimp only
    simp only [Option.getD_some, if_true, hccd, hlfc, Bool.not_true, Bool.and_false,
      Bool.false_eq_true, if_false, List.nil_append, List.append_eq]
    rw [ih cw pwS (fun q hq => hcf q (by simp [hq])) (fun q hq => hcc q (by simp [hq]))
      pw2 pd2 hpw2 hlf2]
    rw [List.map_cons, List.getLastD_cons]

/-- C5 amended: with a Unix (bare-LF) parent including a CRLF-throughout
child (final CRLF retained), returning to the parent pops and finalizes
the child with exactly one `W_FILE_DOS_EOFCRLF` attributed to the child's
last line; the parent's next line is checked under the parent's Unix
convention again (a CRLF parent line then yields `W_FILE_UNIX_CRLF`, and
a bare-LF one yields nothing) — the diagnostic for such a parent line is
attributed to the rebound (stored) parent position.  In the code the
child's finalize diagnostic fires when its last line RETAINS its
terminator, not (as the claim stated) when it lacks it. -/
theorem include_format_isolation (p c : String) (hpc : p ≠ c)
    (pw : Where) (hpwf : pw.filename = p) (pd : Text)
    (hpd1 : endsWithLF pd = true) (hpd2 : endsWithCRLF pd = false)
    (cls : List (Where × Text)) (hne : cls ≠ [])
    (hcf : ∀ q ∈ cls, (q.1).filename = c) (hcc : ∀ q ∈ cls, endsWithCRLF q.2 = true)
    (pw2 : Where) (hpw2 : pw2.filename = p) (pd2 : Text) (hlf2 : endsWithLF pd2 = true) :
    (fileformatReader ((pw, pd) :: cls ++ [(pw2, pd2)])).2
      = Diag.W_FILE_DOS_EOFCRLF ((cls.map (fun q => q.1)).getLastD pw)
          :: (if endsWithCRLF pd2 then [Diag.W_FILE_UNIX_CRLF pw] else []) := by
  cases cls with
  | nil => exact absurd rfl hne
  | cons q rest =>
    obtain ⟨cw, cd⟩ := q
    have hcwf : cw.filename = c := hcf (cw, cd) (by simp)
    have hccd : endsWithCRLF cd = true := hcc (cw, cd) (by simp)
    have hlfc := endsWithLF_of_CRLF cd hccd
    unfold fileformatReader
    simp only [List.cons_append, fileformatRun]
    rw [fileformatStep_eq _ _ pd _ _ _ _ (adjustStack_nil pw)]
    dsimp only
    simp only [Option.getD_none, hpd1, hpd2, Bool.not_true, Bool.or_false,
      Bool.false_eq_true, if_false, List.nil_append, hpwf]
    rw [fileformatStep_eq _ _ cd _ _ _ _ (adjustStack_push _ _ _ (by
        rw [hcwf]; exact hpc) (by
        rw [inStack_cons]
        simp [inStack, hcwf, hpc]))]
    dsimp only
    simp only [Option.getD_none, hccd, hlfc, Bool.not_true, Bool.or_false, Bool.true_or,
      if_true, Bool.and_false, Bool.false_eq_true, if_false, List.nil_append, List.append_eq,
      hcwf]
    rw [c5_run c p (Ne.symm hpc) rest cw pw
      (fun q hq => hcf q (by simp [hq])) (fun q hq => hcc q (by simp [hq]))
      pw2 pd2 hpw2 hlf2]
    rw [List.map_cons, List.getLastD_cons]

/-- Witness for C5's amended claim at a concrete include scenario. -/
theorem include_format_isolation_witness :
    (fileformatReader ((⟨"a.conf", 1, []⟩, strToText "a\n") ::
        [(⟨"b.conf", 1, []⟩, strToText "x\r\n"), (⟨"b.conf", 2, []⟩, strToText "y\r\n")]
          ++ [(⟨"a.conf", 2, []⟩, strToText "b\n")])).2
      = Diag.W_FILE_DOS_EOFCRLF
          (([(⟨"b.conf", 1, []⟩, strToText "x\r\n"),
             (⟨"b.conf", 2, []⟩, strToText "y\r\n")].map (fun q => q.1)).getLastD
            ⟨"a.conf", 1, []⟩)
          :: (if endsWithCRLF (strToText "b\n") then
                [Diag.W_FILE_UNIX_CRLF ⟨"a.conf", 1, []⟩] else []) :=
  include_format_isolation "a.conf" "b.conf" (by decide) ⟨"a.conf", 1, []⟩ rfl
    (strToText "a\n") (by decide) (by decide)
    [(⟨"b.conf", 1, []⟩, strToText "x\r\n"), (⟨"b.conf", 2, []⟩, strToText "y\r\n")]
    (by simp) (by decide) (by decide) ⟨"a.conf", 2, []⟩ rfl (strToText "b\n") (by decide)

/- =====================================================================
   C3: idempotence of the pipeline on cleaned output.
   Part A: preservation lemmas.
===================================================================== -/

theorem all_take (p : Nat → Bool) (d : Text) (n : Nat) (h : d.all p = true) :
    (d.take n).all p = true := by
  rw [List.all_eq_true] at h ⊢
  intro x hx
  exact h x (List.take_subset _ _ hx)

theorem dropLast_all (p : Nat → Bool) (d : Text) (h : d.all p = true) :
    d.dropLast.all p = true := by
  rw [List.dropLast_eq_take]
  exact all_take p d _ h

theorem noLF_endsWithLF (e : Text) (h : noLFText e = true) : endsWithLF e = false := by
  cases e with
  | nil => rfl
  | cons c rest =>
    have hm := at0_mem (c :: rest) ((c :: rest).length - 1) (by simp)
    unfold noLFText at h
    rw [List.all_eq_true] at h
    have hx := h _ hm
    simp only [Bool.not_eq_eq_eq_not, Bool.not_true, beq_eq_false_iff_ne,
      List.length_cons, Nat.add_sub_cancel] at hx
    simp [endsWithLF, hx]

theorem noLF_endsWithCRLF (e : Text) (h : noLFText e = true) : endsWithCRLF e = false := by
  cases e with
  | nil => rfl
  | cons c rest =>
    have hm := at0_mem (c :: rest) ((c :: rest).length - 1) (by simp)
    unfold noLFText at h
    rw [List.all_eq_true] at h
    have hx := h _ hm
    simp only [Bool.not_eq_eq_eq_not, Bool.not_true, beq_eq_false_iff_ne,
      List.length_cons, Nat.add_sub_cancel] at hx
    simp [endsWithCRLF, hx]

theorem stripTerm_noLF (e : Text) (h : noLFText e = true) : stripTerm e = e := by
  unfold stripTerm
  rw [noLF_endsWithCRLF e h, noLF_endsWithLF e h]
  simp

theorem endsWithLF_cons₂ (c b : Nat) (rest : Text) :
    endsWithLF (c :: b :: rest) = endsWithLF (b :: rest) := by
  simp only [endsWithLF, List.isEmpty_cons, Bool.not_false, Bool.true_and,
    List.length_cons, Nat.add_sub_cancel]
  rfl

theorem noLF_full : ∀ (d : Text), noLFText d.dropLast = true → endsWithLF d = false →
    noLFText d = true := by
  intro d
  induction d with
  | nil => intro _ _; rfl
  | cons c rest ih =>
    intro h1 h2
    cases rest with
    | nil =>
      simp only [endsWithLF, List.isEmpty_cons, Bool.not_false, Bool.true_and,
        List.length_cons, Nat.add_sub_cancel] at h2
      simp only [noLFText, List.all_cons, List.all_nil, Bool.and_true]
      simpa [at0] using h2
    | cons b rest' =>
      rw [List.dropLast_cons₂] at h1
      simp only [noLFText, List.all_cons, Bool.and_eq_true] at h1 ⊢
      rw [endsWithLF_cons₂] at h2
      refine ⟨h1.1, ?_⟩
      have h3 := ih h1.2 h2
      simpa [noLFText] using h3

theorem noLF_strip_rstrip (d : Text) (h : noLFText d.dropLast = true) :
    noLFText (rstripWs (stripTerm d)) = true := by
  have hstrip : noLFText (stripTerm d) = true := by
    unfold stripTerm
    by_cases h1 : endsWithCRLF d = true
    · simp only [h1, if_true]
      exact dropLast_all _ _ h
    · simp only [h1, Bool.false_eq_true, if_false]
      by_cases h2 : endsWithLF d = true
      · simp only [h2, if_true]
        exact h
      · simp only [h2, Bool.false_eq_true, if_false]
        exact noLF_full d h (by cases hq : endsWithLF d; rfl; exact absurd hq h2)
  unfold rstripWs
  exact all_take _ _ _ hstrip

theorem esc_take : ∀ (d : Text) (n : Nat), hasEscSemi d = false →
    hasEscSemi (d.take n) = false := by
  intro d
  induction d with
  | nil => intro n _; simp [List.take_nil, hasEscSemi]
  | cons a rest ih =>
    intro n h
    cases rest with
    | nil =>
      cases n with
      | zero => rfl
      | succ m => simp [List.take, hasEscSemi]
    | cons b rest' =>
      simp only [hasEscSemi, Bool.or_eq_false_iff] at h
      cases n with
      | zero => rfl
      | succ m =>
        cases m with
        | zero => simp [List.take, hasEscSemi]
        | succ m' =>
          have hr := ih (m' + 1) h.2
          simp only [List.take, hasEscSemi, Bool.or_eq_false_iff]
          exact ⟨h.1, by simpa [List.take] using hr⟩

theorem esc_stripTerm (d : Text) (h : hasEscSemi d = false) :
    hasEscSemi (stripTerm d) = false := by
  have hdl : hasEscSemi d.dropLast = false := by
    rw [List.dropLast_eq_take]; exact esc_take d _ h
  have hdl2 : hasEscSemi d.dropLast.dropLast = false := by
    rw [List.dropLast_eq_take]; exact esc_take _ _ hdl
  unfold stripTerm
  by_cases h1 : endsWithCRLF d = true
  · simp [h1, hdl2]
  · by_cases h2 : endsWithLF d = true
    · simp [h1, h2, hdl]
    · simp [h1, h2, h]

theorem esc_rstrip (d : Text) (h : hasEscSemi d = false) :
    hasEscSemi (rstripWs d) = false := by
  unfold rstripWs
  exact esc_take d _ h

theorem ctrl_take (d : Text) (n : Nat) (h : hasCtrl d = false) :
    hasCtrl (d.take n) = false := by
  cases hq : hasCtrl (d.take n) with
  | false => rfl
  | true =>
    unfold hasCtrl at hq h
    rw [List.any_eq_true] at hq
    obtain ⟨x, hx, hpx⟩ := hq
    have : d.any illegalCtrl = true := List.any_eq_true.mpr ⟨x, List.take_subset _ _ hx, hpx⟩
    rw [h] at this
    exact Bool.noConfusion this

theorem ctrl_stripTerm (d : Text) (h : hasCtrl d = false) :
    hasCtrl (stripTerm d) = false := by
  have hdl : hasCtrl d.dropLast = false := by
    rw [List.dropLast_eq_take]; exact ctrl_take d _ h
  have hdl2 : hasCtrl d.dropLast.dropLast = false := by
    rw [List.dropLast_eq_take]; exact ctrl_take _ _ hdl
  unfold stripTerm
  by_cases h1 : endsWithCRLF d = true
  · simp [h1, hdl2]
  · by_cases h2 : endsWithLF d = true
    · simp [h1, h2, hdl]
    · simp [h1, h2, h]

theorem ctrl_rstrip (d : Text) (h : hasCtrl d = false) :
    hasCtrl (rstripWs d) = false := by
  unfold rstripWs
  exact ctrl_take d _ h

/- Part B: lemmas on the tracker's pop, and the one-step simulation. -/

theorem popFileinfo_mem : ∀ (s : Option String) (st : List FileInfo) (f : FileInfo),
    f ∈ (popFileinfo s st).1 → f ∈ st := by
  intro s st
  induction st with
  | nil => intro f h; simp [popFileinfo] at h
  | cons g rest ih =>
    intro f h
    simp only [popFileinfo] at h
    by_cases hc : s = some g.filename
    · rw [if_pos hc] at h
      exact h
    · rw [if_neg hc] at h
      dsimp only at h
      exact List.mem_cons_of_mem _ (ih f h)

theorem popFileinfo_silent : ∀ (s : Option String) (st : List FileInfo),
    DOSUntermStack st → (popFileinfo s st).2 = [] := by
  intro s st
  induction st with
  | nil => intro _; rfl
  | cons g rest ih =>
    intro hdos
    simp only [popFileinfo]
    by_cases hc : s = some g.filename
    · rw [if_pos hc]
    · rw [if_neg hc]
      dsimp only
      have hg := hdos g (by simp)
      have hrest : DOSUntermStack rest := fun f hf => hdos f (List.mem_cons_of_mem _ hf)
      rw [ih hrest]
      simp [popDiag, hg.1, hg.2]

theorem popFileinfo_align : ∀ (n : String) (st1 st2 : List FileInfo),
    List.Forall₂ Aligned st1 st2 →
    List.Forall₂ Aligned (popFileinfo (some n) st1).1 (popFileinfo (some n) st2).1 := by
  intro n st1 st2 h
  induction h with
  | nil => exact List.Forall₂.nil
  | @cons x y t1 t2 hxy ht ih =>
    simp only [popFileinfo]
    by_cases hc : (some n : Option String) = some x.filename
    · rw [if_pos hc, if_pos (by rw [← hxy.1]; exact hc)]
      exact List.Forall₂.cons hxy ht
    · rw [if_neg hc, if_neg (by rw [← hxy.1]; exact hc)]
      dsimp only
      exact ih

theorem inStack_align : ∀ (n : String) (st1 st2 : List FileInfo),
    List.Forall₂ Aligned st1 st2 → inStack n st1 = inStack n st2 := by
  intro n st1 st2 h
  induction h with
  | nil => rfl
  | @cons x y t1 t2 hxy ht ih =>
    rw [inStack_cons, inStack_cons, hxy.1, ih]

theorem pop_found : ∀ (n : String) (st : List FileInfo), inStack n st = true →
    ∃ g st2 ds, popFileinfo (some n) st = (g :: st2, ds) ∧ g.filename = n := by
  intro n st
  induction st with
  | nil => intro h; simp [inStack] at h
  | cons f rest ih =>
    intro h
    rw [inStack_cons] at h
    by_cases hf : f.filename = n
    · refine ⟨f, rest, [], ?_, hf⟩
      simp only [popFileinfo]
      rw [if_pos (by rw [hf])]
    · have h2 : inStack n rest = true := by
        simp only [Bool.or_eq_true, beq_iff_eq] at h
        rcases h with h | h
        · exact absurd h hf
        · exact h
      obtain ⟨g, st2, ds, hpop, hg⟩ := ih h2
      refine ⟨g, st2, popDiag f ++ ds, ?_, hg⟩
      simp only [popFileinfo]
      rw [if_neg (by simp only [Option.some.injEq]; exact fun he => hf he.symm)]
      rw [hpop]

theorem fileformatStep_data (st : List FileInfo) (w : Where) (d : Text) :
    (fileformatStep st w d).2.2.1 = stripTerm d := rfl

/-- One step of the second-run simulation: from aligned stacks, running
the tracker on the first run's yielded position with any LF-free data
yields that same position, the data unchanged, no diagnostics, and stacks
that are aligned again (the second-run stack staying DOS/unterminated). -/
theorem step_sim (st1 st2 : List FileInfo) (w : Where) (d e : Text)
    (hwf : WFStack st1) (hal : List.Forall₂ Aligned st1 st2)
    (hdos : DOSUntermStack st2) (he : noLFText e = true) :
    ∃ st2',
      fileformatStep st2 (fileformatStep st1 w d).2.1 e
        = (st2', (fileformatStep st1 w d).2.1, e, []) ∧
      WFStack (fileformatStep st1 w d).1 ∧
      List.Forall₂ Aligned (fileformatStep st1 w d).1 st2' ∧
      DOSUntermStack st2' := by
  have helf : endsWithLF e = false := noLF_endsWithLF e he
  have hecr : endsWithCRLF e = false := noLF_endsWithCRLF e he
  have hestrip : stripTerm e = e := stripTerm_noLF e he
  cases hal with
  | nil =>
    rw [fileformatStep_eq [] w d _ _ _ _ (adjustStack_nil w)]
    dsimp only
    refine ⟨[⟨w.filename, some true, some false, w⟩], ?_, ?_, ?_, ?_⟩
    · rw [fileformatStep_eq [] w e _ _ _ _ (adjustStack_nil w)]
      dsimp only
      rw [helf, hecr, hestrip]
      simp
    · intro f hf
      simp only [List.mem_singleton] at hf
      subst hf
      rfl
    · exact List.Forall₂.cons ⟨rfl, rfl⟩ List.Forall₂.nil
    · intro f hf
      simp only [List.mem_singleton] at hf
      subst hf
      exact ⟨rfl, rfl⟩
  | @cons f1 f2 t1 t2 hff htail =>
    obtain ⟨hfn, hlw⟩ := hff
    have hal' : List.Forall₂ Aligned (f1 :: t1) (f2 :: t2) :=
      List.Forall₂.cons ⟨hfn, hlw⟩ htail
    by_cases hb1 : f1.filename = w.filename
    · -- same source continues: position carried, frame updated in place
      rw [fileformatStep_eq _ w d _ _ _ _ (adjustStack_top_match f1 t1 w hb1)]
      dsimp only
      refine ⟨⟨f2.filename, some true, some false, w⟩ :: t2, ?_, ?_, ?_, ?_⟩
      · rw [fileformatStep_eq _ w e _ _ _ _
          (adjustStack_top_match f2 t2 w (by rw [← hfn]; exact hb1))]
        rw [helf, hecr, hestrip, (hdos f2 (by simp)).1]
        simp
      · intro f hf
        rcases List.mem_cons.mp hf with hf | hf
        · subst hf
          exact hb1.symm
        · exact hwf f (List.mem_cons_of_mem _ hf)
      · exact List.Forall₂.cons ⟨hfn, rfl⟩ htail
      · intro f hf
        rcases List.mem_cons.mp hf with hf | hf
        · subst hf
          exact ⟨rfl, rfl⟩
        · exact hdos f (List.mem_cons_of_mem _ hf)
    · by_cases hb2 : inStack w.filename (f1 :: t1) = true
      · -- return from include: pop, position rebound to the found frame
        obtain ⟨g1, st1', ds1, hpop1, hg1⟩ := pop_found w.filename (f1 :: t1) hb2
        rw [fileformatStep_eq _ w d _ _ _ _
          (adjustStack_pop f1 t1 w g1 st1' ds1 hb1 hb2 hpop1)]
        dsimp only
        have hg1mem : g1 ∈ f1 :: t1 :=
          popFileinfo_mem _ _ _ (by rw [hpop1]; exact List.mem_cons_self _ _)
        have ho1f : g1.last_where.filename = w.filename := by
          rw [hwf g1 hg1mem, hg1]
        have hin2 : inStack g1.last_where.filename (f2 :: t2) = true := by
          rw [ho1f, ← inStack_align w.filename _ _ hal']
          exact hb2
        obtain ⟨g2, st2', ds2, hpop2, hg2⟩ := pop_found _ (f2 :: t2) hin2
        have hpop2w : popFileinfo (some w.filename) (f2 :: t2) = (g2 :: st2', ds2) := by
          rw [← ho1f]
          exact hpop2
        have halpop := popFileinfo_align w.filename _ _ hal'
        rw [hpop1, hpop2w] at halpop
        dsimp only at halpop
        rcases List.forall₂_cons.mp halpop with ⟨hgg, htt⟩
        have hds2 : ds2 = [] := by
          have hs := popFileinfo_silent (some w.filename) (f2 :: t2) hdos
          rw [hpop2w] at hs
          exact hs
        refine ⟨⟨g2.filename, some true, some false, g1.last_where⟩ :: st2', ?_, ?_, ?_, ?_⟩
        · rw [fileformatStep_eq _ _ e _ _ _ _
            (adjustStack_pop f2 t2 g1.last_where g2 st2' ds2
              (by rw [ho1f, ← hfn]; exact hb1) hin2 hpop2)]
          rw [hestrip, helf, hecr, hds2, ← hgg.2,
            (hdos g2 (popFileinfo_mem _ _ _ (by rw [hpop2w]; exact List.mem_cons_self _ _))).1]
          simp
        · intro f hf
          rcases List.mem_cons.mp hf with hf | hf
          · subst hf
            exact hwf g1 hg1mem
          · exact hwf f (popFileinfo_mem (some w.filename) (f1 :: t1) f
              (by rw [hpop1]; exact List.mem_cons_of_mem _ hf))
        · exact List.Forall₂.cons ⟨hgg.1, rfl⟩ htt
        · intro f hf
          rcases List.mem_cons.mp hf with hf | hf
          · subst hf
            exact ⟨rfl, rfl⟩
          · exact hdos f (popFileinfo_mem (some w.filename) (f2 :: t2) f
              (by rw [hpop2w]; exact List.mem_cons_of_mem _ hf))
      · -- fresh include: push, position carried
        have hb2' : inStack w.filename (f1 :: t1) = false := by
          cases hq : inStack w.filename (f1 :: t1)
          · rfl
          · exact absurd hq hb2
        rw [fileformatStep_eq _ w d _ _ _ _ (adjustStack_push f1 t1 w hb1 hb2')]
        dsimp only
        have hin2 : inStack w.filename (f2 :: t2) = false := by
          rw [← inStack_align _ _ _ hal']
          exact hb2'
        refine ⟨⟨w.filename, some true, some false, w⟩ :: f2 :: t2, ?_, ?_, ?_, ?_⟩
        · rw [fileformatStep_eq _ w e _ _ _ _
            (adjustStack_push f2 t2 w (by rw [← hfn]; exact hb1) hin2)]
          dsimp only
          rw [hestrip, helf, hecr]
          simp
        · intro f hf
          rcases List.mem_cons.mp hf with hf | hf
          · subst hf
            rfl
          · exact hwf f hf
        · exact List.Forall₂.cons ⟨rfl, rfl⟩ hal'
        · intro f hf
          rcases List.mem_cons.mp hf with hf | hf
          · subst hf
            exact ⟨rfl, rfl⟩
          · exact hdos f hf

/-- Second-run simulation over a whole input: re-running the tracker on
the first run's outputs (positions kept, data whitespace-stripped, hence
LF-free) reproduces them unchanged and emits no diagnostics. -/
theorem run_sim : ∀ (ls : List (Where × Text)) (st1 st2 : List FileInfo),
    WFStack st1 → List.Forall₂ Aligned st1 st2 → DOSUntermStack st2 →
    (∀ p ∈ ls, noLFText (p.2.dropLast) = true) →
    fileformatRun st2 ((fileformatRun st1 ls).1.map (fun q => (q.1, rstripWs q.2)))
      = ((fileformatRun st1 ls).1.map (fun q => (q.1, rstripWs q.2)), []) := by
  intro ls
  induction ls with
  | nil =>
    intro st1 st2 _ _ hdos _
    simp only [fileformatRun, List.map_nil]
    rw [popFileinfo_silent none st2 hdos]
  | cons p rest ih =>
    intro st1 st2 hwf hal hdos hl
    obtain ⟨w, d⟩ := p
    have he : noLFText (rstripWs (stripTerm d)) = true :=
      noLF_strip_rstrip d (hl (w, d) (by simp))
    obtain ⟨st2', heq, hwf', hal', hdos'⟩ :=
      step_sim st1 st2 w d (rstripWs (stripTerm d)) hwf hal hdos he
    simp only [fileformatRun, List.map_cons, fileformatStep_data]
    rw [heq]
    dsimp only
    rw [ih (fileformatStep st1 w d).1 st2' hwf' hal' hdos'
      (fun q hq => hl q (List.mem_cons_of_mem _ hq))]
    rw [stripTerm_noLF _ he]
    simp

/- Part C: stage glue and the idempotence claim. -/

theorem noCtrlReader_diags : ∀ (ls : List (Where × Text)),
    (∀ p ∈ ls, hasCtrl p.2 = false) → (noCtrlReader ls).2 = [] := by
  intro ls
  induction ls with
  | nil => intro _; rfl
  | cons p rest ih =>
    intro h
    obtain ⟨w, d⟩ := p
    simp only [noCtrlReader]
    rw [h (w, d) (by simp), ih (fun q hq => h q (by simp [hq]))]
    simp

theorem comment_outputs : ∀ (ls : List (Where × Text)),
    (asteriskCommentReader ls).1
      = ls.map (fun q => (q.1, (commentStep q.2).1, (commentStep q.2).2.1)) := by
  intro ls
  induction ls with
  | nil => rfl
  | cons p rest ih =>
    obtain ⟨w, d⟩ := p
    simp [asteriskCommentReader, ih]

theorem comment_diags_none : ∀ (ls : List (Where × Text)),
    (∀ p ∈ ls, endsWithWsp p.2 = false) → (asteriskCommentReader ls).2 = [] := by
  intro ls
  induction ls with
  | nil => intro _; rfl
  | cons p rest ih =>
    intro h
    obtain ⟨w, d⟩ := p
    have hflag : (commentStep d).2.2 = false := by
      rw [commentStep_eq]
      exact h (w, d) (by simp)
    simp only [asteriskCommentReader]
    rw [hflag, ih (fun q hq => h q (by simp [hq]))]
    simp

theorem fileformatRun_data : ∀ (st : List FileInfo) (ls : List (Where × Text))
    (q : Where × Text), q ∈ (fileformatRun st ls).1 → ∃ p ∈ ls, q.2 = stripTerm p.2 := by
  intro st ls
  induction ls generalizing st with
  | nil => intro q hq; simp [fileformatRun] at hq
  | cons p rest ih =>
    intro q hq
    obtain ⟨w, d⟩ := p
    simp only [fileformatRun] at hq
    rcases List.mem_cons.mp hq with hq | hq
    · exact ⟨(w, d), by simp, by rw [hq]; exact fileformatStep_data st w d⟩
    · obtain ⟨p', hp', he⟩ := ih _ q hq
      exact ⟨p', by simp [hp'], he⟩

theorem commentStep_concat (x : Text) (h : hasEscSemi (rstripWs x) = false) :
    (commentStep x).1 ++ (commentStep x).2.1 = rstripWs x := by
  rw [commentStep_eq]
  dsimp only
  exact splitData_concat _ h

theorem commentStep_idem (x : Text) :
    commentStep (rstripWs x) = ((commentStep x).1, (commentStep x).2.1, false) := by
  rw [commentStep_eq (rstripWs x), rstripWs_eq_self _ (rstripWs_not_wsp x),
    rstripWs_not_wsp x, commentStep_eq x]

/-- C3 counterexample: on the single line `a\;b` the first run rewrites
the escaped delimiter to code `a;b` (comment empty); feeding that record
back makes the bare `;` a comment start, so the second run's Line Records
differ from the first run's. -/
theorem pipeline_idem_counterexample :
    (textPipeline ((textPipeline [(⟨"e.conf", 1, []⟩, strToText "a\\;b")]).1.map
        (fun t => (t.1, t.2.1 ++ t.2.2)))).1
      ≠ (textPipeline [(⟨"e.conf", 1, []⟩, strToText "a\\;b")]).1 := by decide

/-- C3 amended: for every input whose lines hold no escaped delimiter
(no backslash immediately before `;`), no illegal control character, and
LF only as the final character (as every Source Stack line does),
re-running the guard/tracker/splitter pipeline on the Line Records of a
first run (position, `code ++ comment`) reproduces exactly the same Line
Records and emits no diagnostics. -/
theorem pipeline_idempotent (ls : List (Where × Text))
    (h : ∀ p ∈ ls, hasEscSemi p.2 = false ∧ hasCtrl p.2 = false ∧
      noLFText p.2.dropLast = true) :
    textPipeline ((textPipeline ls).1.map (fun t => (t.1, t.2.1 ++ t.2.2)))
      = ((textPipeline ls).1, []) := by
  have hdata : ∀ q ∈ (fileformatRun [] ls).1, hasEscSemi (rstripWs q.2) = false ∧
      hasCtrl (rstripWs q.2) = false ∧ noLFText (rstripWs q.2) = true := by
    intro q hq
    obtain ⟨p, hp, hqd⟩ := fileformatRun_data [] ls q hq
    refine ⟨?_, ?_, ?_⟩
    · rw [hqd]
      exact esc_rstrip _ (esc_stripTerm _ (h p hp).1)
    · rw [hqd]
      exact ctrl_rstrip _ (ctrl_stripTerm _ (h p hp).2.1)
    · rw [hqd]
      exact noLF_strip_rstrip p.2 (h p hp).2.2
  simp only [textPipeline, fileformatReader]
  rw [noCtrlReader_outputs ls]
  rw [comment_outputs ((fileformatRun [] ls).1)]
  rw [List.map_map]
  rw [show ((fileformatRun [] ls).1.map ((fun t : Where × Text × Text => (t.1, t.2.1 ++ t.2.2))
        ∘ (fun q : Where × Text => (q.1, (commentStep q.2).1, (commentStep q.2).2.1))))
      = (fileformatRun [] ls).1.map (fun q => (q.1, rstripWs q.2)) from
    List.map_congr_left (fun q hq => by
      dsimp only [Function.comp]
      rw [commentStep_concat q.2 (hdata q hq).1])]
  rw [noCtrlReader_outputs ((fileformatRun [] ls).1.map (fun q => (q.1, rstripWs q.2)))]
  rw [noCtrlReader_diags ((fileformatRun [] ls).1.map (fun q => (q.1, rstripWs q.2))) (by
    intro p hp
    rw [List.mem_map] at hp
    obtain ⟨q, hq, rfl⟩ := hp
    exact (hdata q hq).2.1)]
  rw [run_sim ls [] [] (fun f hf => absurd hf (List.not_mem_nil f)) List.Forall₂.nil
    (fun f hf => absurd hf (List.not_mem_nil f)) (fun p hp => (h p hp).2.2)]
  rw [comment_outputs ((fileformatRun [] ls).1.map (fun q => (q.1, rstripWs q.2)))]
  rw [comment_diags_none ((fileformatRun [] ls).1.map (fun q => (q.1, rstripWs q.2))) (by
    intro p hp
    rw [List.mem_map] at hp
    obtain ⟨q, hq, rfl⟩ := hp
    exact rstripWs_not_wsp q.2)]
  rw [List.map_map]
  rw [show ((fileformatRun [] ls).1.map
        ((fun q : Where × Text => (q.1, (commentStep q.2).1, (commentStep q.2).2.1))
          ∘ (fun q : Where × Text => (q.1, rstripWs q.2))))
      = (fileformatRun [] ls).1.map
          (fun q : Where × Text => (q.1, (commentStep q.2).1, (commentStep q.2).2.1)) from
    List.map_congr_left (fun q _ => by
      dsimp only [Function.comp]
      rw [commentStep_idem q.2])]
  simp

/-- Witness for C3's amended claim at a concrete clean line. -/
theorem pipeline_idempotent_witness :
    textPipeline ((textPipeline [(⟨"e.conf", 1, []⟩, strToText "exten => 1; c\n")]).1.map
        (fun t => (t.1, t.2.1 ++ t.2.2)))
      = ((textPipeline [(⟨"e.conf", 1, []⟩, strToText "exten => 1; c\n")]).1, []) :=
  pipeline_idempotent [(⟨"e.conf", 1, []⟩, strToText "exten => 1; c\n")] (by decide)
